import Mathlib

/-!
Verification of the token-to-subtitle synthesis pipeline and the
chunked-translation remapping algorithm of `src/backend/server.py`.

Strings manipulated by the translator (`translate_vtt_content`) are modelled
as lists of characters (`Line := List Char`), with Python's `str.split('\n')`,
`'\n'.join(...)`, `str.strip()`, substring containment (`in`) and
`str.split(pat, 1)` translated as executable Lean functions below.
`str.strip()` is modelled on the ASCII whitespace characters
(space, tab, newline, carriage return, vertical tab, form feed); the
documents involved contain no other Unicode space characters.
-/

namespace Soniox

/-- A Python string, as a list of characters. -/
abbrev Line := List Char

/-- The whitespace characters removed by Python `str.strip()` (ASCII part). -/
def isPySpace (c : Char) : Bool :=
  c = ' ' || c = '\t' || c = '\n' || c = '\r' || c = '\x0b' || c = '\x0c'

/-- Python `s.strip()`: drop leading and trailing whitespace. -/
def pyStrip (l : Line) : Line :=
  ((l.dropWhile isPySpace).reverse.dropWhile isPySpace).reverse

/-- Helper for `pySplit`: prepend a character to the first piece. -/
def consHead (c : Char) : List Line → List Line
  | [] => [[c]]
  | l :: ls => (c :: l) :: ls

/-- Python `s.split('\n')`: split a string at every newline.
Always returns at least one piece; `"".split('\n') = [""]`. -/
def pySplit : Line → List Line
  | [] => [[]]
  | c :: rest => if c = '\n' then [] :: pySplit rest else consHead c (pySplit rest)

/-- Python `'\n'.join(ls)`. -/
def joinNL : List Line → Line
  | [] => []
  | [l] => l
  | l :: l2 :: ls => l ++ '\n' :: joinNL (l2 :: ls)

/-- Python `pat in s` (substring containment). -/
def hasSub (pat : Line) : Line → Bool
  | [] => pat.isEmpty
  | c :: rest => pat.isPrefixOf (c :: rest) || hasSub pat rest

/-- Python `s.split(pat, 1)` when `pat` occurs: the parts before and after the
first occurrence of `pat`.  Returns `none` when `pat` does not occur
(for nonempty `pat`). -/
def splitFirst (pat : Line) : Line → Option (Line × Line)
  | [] => if pat.isEmpty then some ([], []) else none
  | c :: rest =>
    if pat.isPrefixOf (c :: rest) then some ([], (c :: rest).drop pat.length)
    else (splitFirst pat rest).map (fun p => (c :: p.1, p.2))

/-- Decimal rendering of a natural number, as a character list. -/
def natLine (n : Nat) : Line := (Nat.repr n).data

/-! ### Basic lemmas on the line model -/

theorem pySplit_ne_nil (s : Line) : pySplit s ≠ [] := by
  induction s with
  | nil => simp [pySplit]
  | cons c rest ih =>
    simp only [pySplit]
    split
    · simp
    · cases h : pySplit rest with
      | nil => simp [consHead]
      | cons l ls => simp [consHead]

theorem joinNL_consHead (c : Char) (r : List Line) :
    joinNL (consHead c r) = c :: joinNL r := by
  match r with
  | [] => simp [consHead, joinNL]
  | [l] => simp [consHead, joinNL]
  | l :: l2 :: ls => simp [consHead, joinNL]

/-- `'\n'.join(s.split('\n')) = s`. -/
theorem joinNL_pySplit (s : Line) : joinNL (pySplit s) = s := by
  induction s with
  | nil => simp [pySplit, joinNL]
  | cons c rest ih =>
    simp only [pySplit]
    split
    · rename_i hc
      cases h : pySplit rest with
      | nil => exact absurd h (pySplit_ne_nil rest)
      | cons l ls =>
        subst hc
        simp only [joinNL]
        rw [← h, ih]
        simp
    · rw [joinNL_consHead, ih]

/-- Every piece of `s.split('\n')` is newline-free. -/
theorem mem_pySplit_no_newline (s : Line) :
    ∀ l ∈ pySplit s, '\n' ∉ l := by
  induction s with
  | nil => simp [pySplit]
  | cons c rest ih =>
    simp only [pySplit]
    split
    · intro l hl
      rcases List.mem_cons.mp hl with h | h
      · subst h; simp
      · exact ih l h
    · rename_i hc
      intro l hl
      cases h : pySplit rest with
      | nil => exact absurd h (pySplit_ne_nil rest)
      | cons p ps =>
        rw [h] at hl
        simp only [consHead] at hl
        rcases List.mem_cons.mp hl with h1 | h1
        · subst h1
          intro hmem
          rcases List.mem_cons.mp hmem with h2 | h2
          · exact hc h2.symm
          · exact ih p (h ▸ List.mem_cons_self p ps) h2
        · exact ih l (h ▸ List.mem_cons_of_mem p h1)

/-- Splitting undoes joining, provided every piece is newline-free. -/
theorem pySplit_joinNL (ls : List Line) (hne : ls ≠ [])
    (h : ∀ l ∈ ls, '\n' ∉ l) : pySplit (joinNL ls) = ls := by
  induction ls with
  | nil => exact absurd rfl hne
  | cons l rest ih =>
    cases rest with
    | nil =>
      simp only [joinNL]
      have hl : '\n' ∉ l := h l (List.mem_cons_self _ _)
      clear ih hne h
      induction l with
      | nil => simp [pySplit]
      | cons c cs ihc =>
        have hc : c ≠ '\n' := fun hc => hl (hc ▸ List.mem_cons_self _ _)
        have hcs : '\n' ∉ cs := fun hm => hl (List.mem_cons_of_mem _ hm)
        simp only [pySplit, if_neg (fun hh => hc hh), ihc hcs, consHead]
    | cons l2 ls2 =>
      simp only [joinNL]
      have hl : '\n' ∉ l := h l (List.mem_cons_self _ _)
      have hrest : pySplit (joinNL (l2 :: ls2)) = l2 :: ls2 :=
        ih (by simp) (fun x hx => h x (List.mem_cons_of_mem _ hx))
      clear ih hne h
      induction l with
      | nil => simp [pySplit, hrest]
      | cons c cs ihc =>
        have hc : c ≠ '\n' := fun hc => hl (hc ▸ List.mem_cons_self _ _)
        have hcs : '\n' ∉ cs := fun hm => hl (List.mem_cons_of_mem _ hm)
        simp only [List.cons_append, pySplit, if_neg (fun hh => hc hh), ihc hcs]
        cases h2 : pySplit (cs ++ '\n' :: joinNL (l2 :: ls2)) with
        | nil => exact absurd h2 (pySplit_ne_nil _)
        | cons p ps =>
          rw [h2] at ihc
          have h3 := ihc hcs
          injection h3 with h4 h5
          subst h4
          subst h5
          simp [consHead]

/-- Characters of a split piece come from the original string. -/
theorem mem_of_mem_pySplit {s : Line} {l : Line} (hl : l ∈ pySplit s)
    {c : Char} (hc : c ∈ l) : c ∈ s := by
  induction s generalizing l with
  | nil =>
    simp [pySplit] at hl
    subst hl
    simp at hc
  | cons a rest ih =>
    simp only [pySplit] at hl
    split at hl
    · rcases List.mem_cons.mp hl with h | h
      · subst h; simp at hc
      · exact List.mem_cons_of_mem _ (ih h hc)
    · cases h : pySplit rest with
      | nil => exact absurd h (pySplit_ne_nil rest)
      | cons p ps =>
        rw [h] at hl
        simp only [consHead] at hl
        rcases List.mem_cons.mp hl with h1 | h1
        · subst h1
          rcases List.mem_cons.mp hc with h2 | h2
          · exact h2 ▸ List.mem_cons_self _ _
          · exact List.mem_cons_of_mem _ (ih (h ▸ List.mem_cons_self p ps) h2)
        · exact List.mem_cons_of_mem _ (ih (h ▸ List.mem_cons_of_mem p h1) hc)

/-- Characters surviving `strip` come from the original string. -/
theorem mem_of_mem_pyStrip {l : Line} {c : Char} (hc : c ∈ pyStrip l) : c ∈ l := by
  unfold pyStrip at hc
  rw [List.mem_reverse] at hc
  have h1 := (List.dropWhile_sublist (l := (l.dropWhile isPySpace).reverse) isPySpace).mem hc
  rw [List.mem_reverse] at h1
  exact (List.dropWhile_sublist isPySpace).mem h1

/-- If `strip` empties a string, every character was whitespace. -/
theorem pyStrip_nil_all_space {l : Line} (h : pyStrip l = []) :
    ∀ c ∈ l, isPySpace c = true := by
  unfold pyStrip at h
  rw [List.reverse_eq_nil_iff] at h
  have h2 : ∀ c ∈ (l.dropWhile isPySpace).reverse, isPySpace c = true :=
    List.dropWhile_eq_nil_iff.mp h
  have h3 : ∀ c ∈ l.dropWhile isPySpace, isPySpace c = true := by
    intro c hc
    exact h2 c (List.mem_reverse.mpr hc)
  intro c hc
  rcases (List.takeWhile_append_dropWhile (p := isPySpace) (l := l)) ▸ hc with hc2
  rcases List.mem_append.mp (by rw [List.takeWhile_append_dropWhile] at hc2 ⊢; exact hc) with
    h4 | h4
  · exact List.mem_takeWhile_imp h4
  · exact h3 c h4

/-! ### Chunked translator (`translate_vtt_content`, server.py lines 543-637)

The external translation capability (`translate_text_with_openai`) is modelled
as an abstract function `tr : Line → Option Line`; `none` models the call
raising an exception, `some s` models it returning the text `s`. -/

/-- A text block / translation chunk: parallel lists of (stripped) text lines
and their absolute line indices in the document, exactly the
`{'text_lines': [...], 'indices': [...]}` dicts of `translate_vtt_content`. -/
structure TextBlock where
  text_lines : List Line
  indices : List Nat
deriving DecidableEq, Repr

/-- A line is skipped (not translatable) iff, after stripping, it is empty,
equals `WEBVTT`, or contains `-->` (server.py line 559). -/
def isSkipLine (ls : Line) : Bool :=
  ls.isEmpty || ls = "WEBVTT".data || hasSub ("-->".data) ls

/-- First pass of `translate_vtt_content` (lines 554-578): walk the lines with
a current block accumulator, flushing it at every skipped line.  `i` is the
index of the first line of `rest` in the whole document. -/
def firstPassAux : Nat → List Line → List Line → List Nat → List TextBlock
  | _, [], cur, curIdx => if cur.isEmpty then [] else [⟨cur, curIdx⟩]
  | i, line :: rest, cur, curIdx =>
    let ls := pyStrip line
    if isSkipLine ls then
      (if cur.isEmpty then [] else [⟨cur, curIdx⟩]) ++ firstPassAux (i + 1) rest [] []
    else
      firstPassAux (i + 1) rest (cur ++ [ls]) (curIdx ++ [i])

/-- The blocks of consecutive translatable lines of a document. -/
def textBlocks (lines : List Line) : List TextBlock := firstPassAux 0 lines [] []

/-- `chunk_size = 40` (server.py line 581). -/
def chunkSize : Nat := 40

/-- Second pass (lines 582-596): greedily merge blocks into chunks, flushing
the current chunk before a block that would push it past `chunkSize` lines. -/
def buildChunksAux : List TextBlock → TextBlock → List TextBlock
  | [], cur => if cur.text_lines.isEmpty then [] else [cur]
  | b :: rest, cur =>
    if chunkSize < cur.text_lines.length + b.text_lines.length
        && !cur.text_lines.isEmpty then
      cur :: buildChunksAux rest b
    else
      buildChunksAux rest ⟨cur.text_lines ++ b.text_lines, cur.indices ++ b.indices⟩

/-- The translation chunks of a document given as a line list. -/
def chunksOf (lines : List Line) : List TextBlock :=
  buildChunksAux (textBlocks lines) ⟨[], []⟩

/-- Number the lines of a chunk `1. <line>`, `2. <line>`, ... (line 604). -/
def renderChunkLines : Nat → List Line → List Line
  | _, [] => []
  | n, l :: ls => (natLine n ++ ". ".data ++ l) :: renderChunkLines (n + 1) ls

/-- The numbered batch text sent to the translation capability for a chunk. -/
def renderChunk (c : TextBlock) : Line := joinNL (renderChunkLines 1 c.text_lines)

/-- Parse one line of the capability output (lines 612-620): strip it, drop it
if empty, otherwise remove everything up to the first `". "` if present. -/
def parseLine (l : Line) : Option Line :=
  let ls := pyStrip l
  if ls.isEmpty then none
  else
    match splitFirst (". ".data) ls with
    | some p => some p.2
    | none => some ls

/-- Parse the capability output back into individual translated lines. -/
def parseTranslated (s : Line) : List Line := (pySplit s).filterMap parseLine

/-- Process one chunk (lines 599-635): skip it when empty; on capability
failure leave the accumulated lines untouched; on success write the parsed
lines back at the chunk's indices by parallel position, ignoring any excess
and leaving unmatched trailing indices untouched (`zip` truncates, exactly
like the `if i < len(translated_lines_chunk)` guard).  All written indices
are in range by construction, so `List.set` matches Python list assignment. -/
def applyChunk (tr : Line → Option Line) (acc : List Line) (c : TextBlock) :
    List Line :=
  if c.text_lines.isEmpty then acc
  else
    match tr (renderChunk c) with
    | none => acc
    | some s =>
      (c.indices.zip (parseTranslated s)).foldl (fun a p => a.set p.1 p.2) acc

/-- The translated line list: fold every chunk over a copy of the lines. -/
def translateLines (tr : Line → Option Line) (lines : List Line) : List Line :=
  (chunksOf lines).foldl (applyChunk tr) lines

/-- `translate_vtt_content` (lines 543-637): empty or whitespace-only input
returns the empty string; otherwise split into lines, translate chunkwise,
and re-join with newlines. -/
def translate_vtt_content (tr : Line → Option Line) (v : Line) : Line :=
  if (pyStrip v).isEmpty then [] else joinNL (translateLines tr (pySplit v))

/-! ### VTT generation (`generate_vtt` / `format_vtt_timestamp`, lines 143-215)

Token and word texts are modelled as `Line` (lists of characters), like the
documents above.  Millisecond timestamps are natural numbers.
`format_vtt_timestamp` divides `ms / 1000` as a Python float and prints it
with `f"{secs:06.3f}"`; for integer `ms` the fractional part has at most
three decimal digits, so the float prints exactly and the function equals
the integer computation below. -/

/-- A transcription token: a (possibly sub-word) text fragment with timing. -/
structure Token where
  text : Line
  start_ms : Nat
  end_ms : Nat
deriving DecidableEq, Repr

/-- A reconstructed word with timing. -/
structure Word where
  text : Line
  start_ms : Nat
  end_ms : Nat
deriving DecidableEq, Repr

/-- Python `t.startswith(' ')`: the first character is a space. -/
def startsWithSpace : Line → Bool
  | [] => false
  | c :: _ => c = ' '

/-- Word-reconstruction loop of `generate_vtt` (lines 151-185).  State:
current accumulator text `cur` and its timings `cs`, `ce` (Python keeps
`None` until the first word starts; the timings are only read once `cur` is
nonempty, so the initial `0`s are never observed), plus the words
accumulated so far.  A token starting with a space character, or arriving
while the accumulator is empty, closes the accumulator (kept only when
nonempty) and starts a new word from the token's stripped text. -/
def wordsAux : List Token → Line → Nat → Nat → List Word → List Word
  | [], cur, cs, ce, acc => if cur.isEmpty then acc else acc ++ [⟨cur, cs, ce⟩]
  | t :: rest, cur, cs, ce, acc =>
    if startsWithSpace t.text || cur.isEmpty then
      wordsAux rest (pyStrip t.text) t.start_ms t.end_ms
        (if cur.isEmpty then acc else acc ++ [⟨cur, cs, ce⟩])
    else
      wordsAux rest (cur ++ t.text) cs t.end_ms acc

/-- The word list reconstructed from a token sequence. -/
def wordsFromTokens (ts : List Token) : List Word := wordsAux ts [] 0 0 []

/-- `words_per_chunk = 6` (line 188). -/
def wordsPerCue : Nat := 6

/-- The slices `words[i:i+6]` of the cue-building loop (line 190): the word
list cut into consecutive groups of six, the last group possibly shorter. -/
def groupWords : List Word → List (List Word)
  | [] => []
  | a :: b :: c :: d :: e :: f :: rest => [a, b, c, d, e, f] :: groupWords rest
  | ws => [ws]

/-- Zero-pad a decimal rendering on the left to width `w` (Python `{:0Nd}`,
which never truncates longer renderings). -/
def padZero (w : Nat) (s : Line) : Line :=
  if w ≤ s.length then s else List.replicate (w - s.length) '0' ++ s

/-- `format_vtt_timestamp` (lines 209-215): `HH:MM:SS.mmm`, hours zero-padded
to at least two digits and not capped at 24. -/
def format_vtt_timestamp (ms : Nat) : Line :=
  padZero 2 (natLine (ms / 3600000)) ++ ":".data ++
    padZero 2 (natLine (ms % 3600000 / 60000)) ++ ":".data ++
    padZero 2 (natLine (ms % 60000 / 1000)) ++ ".".data ++
    padZero 3 (natLine (ms % 1000))

/-- Python `' '.join(texts)`. -/
def joinSpace : List Line → Line
  | [] => []
  | [l] => l
  | l :: l2 :: ls => l ++ ' ' :: joinSpace (l2 :: ls)

/-- Render one cue block (line 205): timestamp line, text line joining the
cue's words with single spaces, trailing blank line.  Cue timing is the
first word's start and the last word's end.  The empty case is unreachable
(slices of the loop are nonempty). -/
def renderCue (c : List Word) : Line :=
  match c with
  | [] => []
  | w :: rest =>
    format_vtt_timestamp w.start_ms ++ " --> ".data ++
      format_vtt_timestamp (((w :: rest).getLastD w).end_ms) ++ '\n' ::
      joinSpace ((w :: rest).map Word.text) ++ "\n\n".data

/-- `generate_vtt` (lines 143-207), taking the transcript's token list. -/
def generate_vtt (tokens : List Token) : Line :=
  if tokens.isEmpty then "WEBVTT\n\n".data
  else "WEBVTT\n\n".data ++
    ((groupWords (wordsFromTokens tokens)).map renderCue).flatten

/-! ### Chunked-translator lemmas: where the chunk indices point -/

/-- `idx` is the position of a translatable (non-skipped) line of `L`. -/
def TextPos (L : List Line) (idx : Nat) : Prop :=
  ∃ l, L[idx]? = some l ∧ isSkipLine (pyStrip l) = false

/-- All indices of a list of blocks/chunks, in order. -/
def allIdx (cs : List TextBlock) : List Nat := (cs.map TextBlock.indices).flatten

theorem allIdx_nil : allIdx [] = [] := rfl

theorem allIdx_cons (c : TextBlock) (cs : List TextBlock) :
    allIdx (c :: cs) = c.indices ++ allIdx cs := by
  simp [allIdx]

theorem allIdx_append (cs ds : List TextBlock) :
    allIdx (cs ++ ds) = allIdx cs ++ allIdx ds := by
  simp [allIdx]

/-- Every index collected by the first pass points at a translatable line. -/
theorem firstPassAux_textPos (L : List Line) :
    ∀ (ls : List Line) (i : Nat) (cur : List Line) (curIdx : List Nat),
      (∀ j ∈ curIdx, TextPos L j) → ls = L.drop i →
      ∀ b ∈ firstPassAux i ls cur curIdx, ∀ idx ∈ b.indices, TextPos L idx := by
  intro ls
  induction ls with
  | nil =>
    intro i cur curIdx hcur _ b hb idx hidx
    simp only [firstPassAux] at hb
    split at hb
    · simp at hb
    · simp only [List.mem_singleton] at hb
      subst hb
      exact hcur idx hidx
  | cons line rest ih =>
    intro i cur curIdx hcur hdrop b hb idx hidx
    have hline : L[i]? = some line := by
      have h0 : (L.drop i)[0]? = some line := by rw [← hdrop]; simp
      rw [List.getElem?_drop] at h0
      simpa using h0
    have hrest : rest = L.drop (i + 1) := by
      have h1 : (L.drop i).drop 1 = L.drop (i + 1) := List.drop_drop 1 i L
      rw [← hdrop] at h1
      simpa using h1
    simp only [firstPassAux] at hb
    split at hb
    · rcases List.mem_append.mp hb with h | h
      · split at h
        · simp at h
        · simp only [List.mem_singleton] at h
          subst h
          exact hcur idx hidx
      · exact ih (i + 1) [] [] (by simp) hrest b h idx hidx
    · rename_i hskip
      refine ih (i + 1) (cur ++ [pyStrip line]) (curIdx ++ [i]) ?_ hrest b hb idx hidx
      intro j hj
      rcases List.mem_append.mp hj with h | h
      · exact hcur j h
      · simp only [List.mem_singleton] at h
        subst h
        exact ⟨line, hline, Bool.eq_false_iff.mpr hskip⟩

/-- The first pass produces blocks whose flattened index list is strictly
increasing, each index either inherited from the accumulator or at least `i`. -/
theorem firstPassAux_sorted :
    ∀ (ls : List Line) (i : Nat) (cur : List Line) (curIdx : List Nat),
      List.Pairwise (· < ·) curIdx → (∀ j ∈ curIdx, j < i) →
      List.Pairwise (· < ·) (allIdx (firstPassAux i ls cur curIdx)) ∧
      (∀ j ∈ allIdx (firstPassAux i ls cur curIdx), j ∈ curIdx ∨ i ≤ j) := by
  intro ls
  induction ls with
  | nil =>
    intro i cur curIdx hp hlt
    simp only [firstPassAux]
    split
    · simp [allIdx]
    · constructor
      · simpa [allIdx] using hp
      · intro j hj
        simp only [allIdx, List.map_cons, List.map_nil, List.flatten_cons,
          List.flatten_nil, List.append_nil] at hj
        exact Or.inl hj
  | cons line rest ih =>
    intro i cur curIdx hp hlt
    simp only [firstPassAux]
    split
    · have hrec := ih (i + 1) [] [] (by simp) (by simp)
      rw [allIdx_append]
      constructor
      · rw [List.pairwise_append]
        refine ⟨?_, hrec.1, ?_⟩
        · split
          · simp [allIdx]
          · simpa [allIdx] using hp
        · intro a ha b hb
          have hb2 := hrec.2 b hb
          have ha2 : a ∈ curIdx := by
            split at ha
            · simp [allIdx] at ha
            · simpa [allIdx] using ha
          rcases hb2 with h | h
          · simp at h
          · exact lt_of_lt_of_le (Nat.lt_succ_of_lt (hlt a ha2)) h
      · intro j hj
        rcases List.mem_append.mp hj with h | h
        · split at h
          · simp [allIdx] at h
          · exact Or.inl (by simpa [allIdx] using h)
        · rcases (hrec.2 j h) with h2 | h2
          · simp at h2
          · exact Or.inr (le_of_lt (Nat.lt_of_succ_le h2))
    · have hp2 : List.Pairwise (· < ·) (curIdx ++ [i]) := by
        rw [List.pairwise_append]
        exact ⟨hp, List.pairwise_singleton _ _, fun a ha b hb => by
          simp only [List.mem_singleton] at hb
          subst hb
          exact hlt a ha⟩
      have hlt2 : ∀ j ∈ curIdx ++ [i], j < i + 1 := by
        intro j hj
        rcases List.mem_append.mp hj with h | h
        · exact Nat.lt_succ_of_lt (hlt j h)
        · simp only [List.mem_singleton] at h
          subst h
          omega
      have hrec := ih (i + 1) (cur ++ [pyStrip line]) (curIdx ++ [i]) hp2 hlt2
      refine ⟨hrec.1, ?_⟩
      intro j hj
      rcases hrec.2 j hj with h | h
      · rcases List.mem_append.mp h with h2 | h2
        · exact Or.inl h2
        · simp only [List.mem_singleton] at h2
          subst h2
          exact Or.inr (le_refl j)
      · exact Or.inr (Nat.le_of_succ_le h)

/-- Blocks produced by the first pass have as many indices as text lines. -/
theorem firstPassAux_wf :
    ∀ (ls : List Line) (i : Nat) (cur : List Line) (curIdx : List Nat),
      cur.length = curIdx.length →
      ∀ b ∈ firstPassAux i ls cur curIdx, b.text_lines.length = b.indices.length := by
  intro ls
  induction ls with
  | nil =>
    intro i cur curIdx hlen b hb
    simp only [firstPassAux] at hb
    split at hb
    · simp at hb
    · simp only [List.mem_singleton] at hb
      subst hb
      exact hlen
  | cons line rest ih =>
    intro i cur curIdx hlen b hb
    simp only [firstPassAux] at hb
    split at hb
    · rcases List.mem_append.mp hb with h | h
      · split at h
        · simp at h
        · simp only [List.mem_singleton] at h
          subst h
          exact hlen
      · exact ih (i + 1) [] [] rfl b h
    · exact ih (i + 1) _ _ (by simp [hlen]) b hb

/-- Indices of built chunks come from the accumulator or from the blocks. -/
theorem buildChunksAux_mem_indices :
    ∀ (blocks : List TextBlock) (cur : TextBlock) (c : TextBlock),
      c ∈ buildChunksAux blocks cur → ∀ idx ∈ c.indices,
      idx ∈ cur.indices ∨ ∃ b ∈ blocks, idx ∈ b.indices := by
  intro blocks
  induction blocks with
  | nil =>
    intro cur c hc idx hidx
    simp only [buildChunksAux] at hc
    split at hc
    · simp at hc
    · simp only [List.mem_singleton] at hc
      subst hc
      exact Or.inl hidx
  | cons b rest ih =>
    intro cur c hc idx hidx
    simp only [buildChunksAux] at hc
    split at hc
    · rcases List.mem_cons.mp hc with h | h
      · subst h
        exact Or.inl hidx
      · rcases ih b c h idx hidx with h2 | ⟨b2, hb2, hidx2⟩
        · exact Or.inr ⟨b, List.mem_cons_self _ _, h2⟩
        · exact Or.inr ⟨b2, List.mem_cons_of_mem _ hb2, hidx2⟩
    · rcases ih _ c hc idx hidx with h2 | ⟨b2, hb2, hidx2⟩
      · rcases List.mem_append.mp h2 with h3 | h3
        · exact Or.inl h3
        · exact Or.inr ⟨b, List.mem_cons_self _ _, h3⟩
      · exact Or.inr ⟨b2, List.mem_cons_of_mem _ hb2, hidx2⟩

/-- Chunk building only regroups the indices: the flattened index list of the
chunks is the accumulator's indices followed by the blocks' indices. -/
theorem buildChunksAux_allIdx :
    ∀ (blocks : List TextBlock) (cur : TextBlock),
      (cur.text_lines = [] → cur.indices = []) →
      (∀ b ∈ blocks, b.text_lines = [] → b.indices = []) →
      allIdx (buildChunksAux blocks cur) = cur.indices ++ allIdx blocks := by
  intro blocks
  induction blocks with
  | nil =>
    intro cur hwf _
    simp only [buildChunksAux]
    split
    · rename_i h
      rw [List.isEmpty_iff] at h
      simp [allIdx, hwf h]
    · simp [allIdx]
  | cons b rest ih =>
    intro cur hwf hwfb
    simp only [buildChunksAux]
    split
    · rw [allIdx_cons, ih b (hwfb b (List.mem_cons_self _ _))
        (fun b2 hb2 => hwfb b2 (List.mem_cons_of_mem _ hb2)), allIdx_cons]
    · rw [ih ⟨cur.text_lines ++ b.text_lines, cur.indices ++ b.indices⟩
        (fun h => by
          rcases List.append_eq_nil.mp h with ⟨h1, h2⟩
          simp [hwf h1, hwfb b (List.mem_cons_self _ _) h2])
        (fun b2 hb2 => hwfb b2 (List.mem_cons_of_mem _ hb2))]
      simp [allIdx_cons, List.append_assoc]

/-- Every built chunk has at least one text line. -/
theorem buildChunksAux_nonempty :
    ∀ (blocks : List TextBlock) (cur : TextBlock) (c : TextBlock),
      c ∈ buildChunksAux blocks cur → c.text_lines ≠ [] := by
  intro blocks
  induction blocks with
  | nil =>
    intro cur c hc
    simp only [buildChunksAux] at hc
    split at hc
    · simp at hc
    · rename_i h
      simp only [List.mem_singleton] at hc
      subst hc
      simpa [List.isEmpty_eq_false] using h
  | cons b rest ih =>
    intro cur c hc
    simp only [buildChunksAux] at hc
    split at hc
    · rename_i h
      rcases List.mem_cons.mp hc with h2 | h2
      · subst h2
        have := (Bool.and_eq_true _ _).mp h
        simpa [List.isEmpty_eq_false] using this.2
      · exact ih b c h2
    · exact ih _ c hc

/-- Chunks have as many indices as text lines. -/
theorem buildChunksAux_wf :
    ∀ (blocks : List TextBlock) (cur : TextBlock),
      cur.text_lines.length = cur.indices.length →
      (∀ b ∈ blocks, b.text_lines.length = b.indices.length) →
      ∀ c ∈ buildChunksAux blocks cur, c.text_lines.length = c.indices.length := by
  intro blocks
  induction blocks with
  | nil =>
    intro cur hwf _ c hc
    simp only [buildChunksAux] at hc
    split at hc
    · simp at hc
    · simp only [List.mem_singleton] at hc
      subst hc
      exact hwf
  | cons b rest ih =>
    intro cur hwf hwfb c hc
    simp only [buildChunksAux] at hc
    split at hc
    · rcases List.mem_cons.mp hc with h | h
      · subst h
        exact hwf
      · exact ih b (hwfb b (List.mem_cons_self _ _))
          (fun b2 hb2 => hwfb b2 (List.mem_cons_of_mem _ hb2)) c h
    · exact ih _ (by simp [hwf, hwfb b (List.mem_cons_self _ _)])
        (fun b2 hb2 => hwfb b2 (List.mem_cons_of_mem _ hb2)) c hc

/-- Every index of every chunk of a document points at a translatable line. -/
theorem chunksOf_textPos (L : List Line) :
    ∀ c ∈ chunksOf L, ∀ idx ∈ c.indices, TextPos L idx := by
  intro c hc idx hidx
  rcases buildChunksAux_mem_indices (textBlocks L) ⟨[], []⟩ c hc idx hidx with h | ⟨b, hb, hidx2⟩
  · simp at h
  · exact firstPassAux_textPos L L 0 [] [] (by simp) (by simp) b hb idx hidx2

/-- The flattened indices of the chunks of a document, strictly increasing. -/
theorem chunksOf_allIdx_pairwise (L : List Line) :
    List.Pairwise (· < ·) (allIdx (chunksOf L)) := by
  have hwfb : ∀ b ∈ textBlocks L, b.text_lines.length = b.indices.length :=
    firstPassAux_wf L 0 [] [] rfl
  have h := buildChunksAux_allIdx (textBlocks L) ⟨[], []⟩ (fun _ => rfl)
    (fun b hb h2 => by
      have := hwfb b hb
      rw [h2] at this
      exact List.length_eq_zero.mp this.symm)
  rw [chunksOf, h]
  simpa using (firstPassAux_sorted L 0 [] [] (by simp) (by simp)).1

theorem chunksOf_wf (L : List Line) :
    ∀ c ∈ chunksOf L, c.text_lines.length = c.indices.length :=
  buildChunksAux_wf (textBlocks L) ⟨[], []⟩ rfl (firstPassAux_wf L 0 [] [] rfl)

theorem chunksOf_nonempty (L : List Line) :
    ∀ c ∈ chunksOf L, c.text_lines ≠ [] :=
  fun c hc => buildChunksAux_nonempty (textBlocks L) ⟨[], []⟩ c hc

/-! ### Chunked-translator lemmas: writing translated lines back -/

theorem foldl_set_length (ps : List (Nat × Line)) (acc : List Line) :
    (ps.foldl (fun a p => a.set p.1 p.2) acc).length = acc.length := by
  induction ps generalizing acc with
  | nil => rfl
  | cons p rest ih => simp [List.foldl_cons, ih, List.length_set]

theorem foldl_set_getElem_not_mem (ps : List (Nat × Line)) (acc : List Line)
    (idx : Nat) (h : ∀ p ∈ ps, p.1 ≠ idx) :
    (ps.foldl (fun a p => a.set p.1 p.2) acc)[idx]? = acc[idx]? := by
  induction ps generalizing acc with
  | nil => rfl
  | cons p rest ih =>
    simp only [List.foldl_cons]
    rw [ih _ (fun q hq => h q (List.mem_cons_of_mem _ hq))]
    exact List.getElem?_set_ne (h p (List.mem_cons_self _ _))

theorem foldl_set_getElem_last (ps : List (Nat × Line)) :
    ∀ (acc : List Line) (i idx : Nat) (v : Line), ps[i]? = some (idx, v) →
      (∀ j p, i < j → ps[j]? = some p → p.1 ≠ idx) → idx < acc.length →
      (ps.foldl (fun a p => a.set p.1 p.2) acc)[idx]? = some v := by
  induction ps with
  | nil => intro acc i idx v hps; simp at hps
  | cons p rest ih =>
    intro acc i idx v hps hlater hlen
    cases i with
    | zero =>
      simp only [List.getElem?_cons_zero, Option.some_inj] at hps
      subst hps
      simp only [List.foldl_cons]
      rw [foldl_set_getElem_not_mem rest _ idx ?_]
      · exact List.getElem?_set_self hlen
      · intro q hq
        obtain ⟨j, hj, hjq⟩ := List.mem_iff_getElem.mp hq
        exact hlater (j + 1) q (Nat.succ_pos j)
          (by simpa [List.getElem?_cons_succ] using List.getElem?_eq_getElem hj ▸
            congrArg some hjq)
    | succ n =>
      simp only [List.getElem?_cons_succ] at hps
      simp only [List.foldl_cons]
      refine ih _ n idx v hps ?_ ?_
      · intro j q hj hjq
        exact hlater (j + 1) q (by omega) (by simpa [List.getElem?_cons_succ] using hjq)
      · rw [List.length_set]
        exact hlen

theorem getElem?_zip_eq_some {l1 : List Nat} {l2 : List Line} :
    ∀ {i : Nat} {a : Nat} {b : Line}, l1[i]? = some a → l2[i]? = some b →
      (l1.zip l2)[i]? = some (a, b) := by
  induction l1 generalizing l2 with
  | nil => intro i a b h1; simp at h1
  | cons x xs ih =>
    intro i a b h1 h2
    cases l2 with
    | nil => simp at h2
    | cons y ys =>
      cases i with
      | zero =>
        simp only [List.getElem?_cons_zero, Option.some_inj] at h1 h2
        subst h1
        subst h2
        simp [List.zip_cons_cons]
      | succ n =>
        simp only [List.getElem?_cons_succ] at h1 h2
        simpa [List.zip_cons_cons, List.getElem?_cons_succ] using ih h1 h2

theorem applyChunk_length (tr : Line → Option Line) (acc : List Line)
    (c : TextBlock) : (applyChunk tr acc c).length = acc.length := by
  unfold applyChunk
  split
  · rfl
  · rcases htr : tr (renderChunk c) with _ | s
    · rfl
    · exact foldl_set_length _ _

theorem applyChunk_getElem_not_mem (tr : Line → Option Line) (acc : List Line)
    (c : TextBlock) (idx : Nat) (h : idx ∉ c.indices) :
    (applyChunk tr acc c)[idx]? = acc[idx]? := by
  unfold applyChunk
  split
  · rfl
  · rcases htr : tr (renderChunk c) with _ | s
    · rfl
    · apply foldl_set_getElem_not_mem
      rintro ⟨p1, p2⟩ hp hpe
      exact h (hpe ▸ (List.of_mem_zip hp).1)

theorem applyChunk_none (tr : Line → Option Line) (acc : List Line)
    (c : TextBlock) (h : tr (renderChunk c) = none) :
    applyChunk tr acc c = acc := by
  unfold applyChunk
  split
  · rfl
  · rw [h]

theorem applyChunk_getElem_assign (tr : Line → Option Line) (acc : List Line)
    (c : TextBlock) (s : Line) (i idx : Nat)
    (hp : List.Pairwise (· < ·) c.indices)
    (htr : tr (renderChunk c) = some s)
    (hcne : c.text_lines ≠ [])
    (hi : c.indices[i]? = some idx)
    (hlen : idx < acc.length) :
    (applyChunk tr acc c)[idx]? =
      if i < (parseTranslated s).length then (parseTranslated s)[i]?
      else acc[idx]? := by
  unfold applyChunk
  rw [if_neg (by simpa [List.isEmpty_eq_false] using hcne), htr]
  obtain ⟨hilt, hig⟩ := List.getElem?_eq_some.mp hi
  by_cases hl : i < (parseTranslated s).length
  · rw [if_pos hl]
    have hz : (c.indices.zip (parseTranslated s))[i]? =
        some (idx, (parseTranslated s)[i]) :=
      getElem?_zip_eq_some hi (List.getElem?_eq_getElem hl)
    rw [foldl_set_getElem_last _ _ i idx _ hz ?_ hlen]
    · exact (List.getElem?_eq_getElem hl).symm
    · rintro j ⟨p1, p2⟩ hij hj
      obtain ⟨hjlt, hjg⟩ := List.getElem?_eq_some.mp hj
      have hjlen : j < c.indices.length :=
        lt_of_lt_of_le hjlt (by rw [List.length_zip]; exact inf_le_left)
      have hjlen3 : j < (parseTranslated s).length :=
        lt_of_lt_of_le hjlt (by rw [List.length_zip]; exact inf_le_right)
      have hje : (c.indices.zip (parseTranslated s))[j] =
          (c.indices[j], (parseTranslated s)[j]) := List.getElem_zip
      rw [hje] at hjg
      have hp1 : p1 = c.indices[j] := (Prod.mk.injEq _ _ _ _ ▸ hjg.symm).1
      have hlt := List.pairwise_iff_getElem.mp hp i j hilt hjlen hij
      rw [hig] at hlt
      simp only [hp1]
      omega
  · rw [if_neg hl]
    apply foldl_set_getElem_not_mem
    rintro ⟨p1, p2⟩ hpmem hpe
    obtain ⟨j, hj, hjg⟩ := List.mem_iff_getElem.mp hpmem
    have hjlen2 : j < (parseTranslated s).length :=
      lt_of_lt_of_le hj (by rw [List.length_zip]; exact inf_le_right)
    have hjlen1 : j < c.indices.length :=
      lt_of_lt_of_le hj (by rw [List.length_zip]; exact inf_le_left)
    have hje : (c.indices.zip (parseTranslated s))[j] =
        (c.indices[j], (parseTranslated s)[j]) := List.getElem_zip
    rw [hje] at hjg
    have hp1 : p1 = c.indices[j] := (Prod.mk.injEq _ _ _ _ ▸ hjg.symm).1
    have hji : j < i := by omega
    have hlt := List.pairwise_iff_getElem.mp hp j i hjlen1 hilt hji
    rw [hig] at hlt
    have hpe2 : p1 = idx := hpe
    omega

theorem foldl_applyChunk_length (tr : Line → Option Line) (cs : List TextBlock) :
    ∀ acc : List Line, (cs.foldl (applyChunk tr) acc).length = acc.length := by
  induction cs with
  | nil => intro acc; rfl
  | cons c rest ih =>
    intro acc
    rw [List.foldl_cons, ih, applyChunk_length]

theorem foldl_applyChunk_not_mem (tr : Line → Option Line) (cs : List TextBlock)
    (idx : Nat) (h : ∀ c ∈ cs, idx ∉ c.indices) :
    ∀ acc : List Line, (cs.foldl (applyChunk tr) acc)[idx]? = acc[idx]? := by
  induction cs with
  | nil => intro acc; rfl
  | cons c rest ih =>
    intro acc
    rw [List.foldl_cons, ih (fun c2 hc2 => h c2 (List.mem_cons_of_mem _ hc2)),
      applyChunk_getElem_not_mem tr acc c idx (h c (List.mem_cons_self _ _))]

theorem foldl_set_getElem_congr (ps : List (Nat × Line)) (idx : Nat) :
    ∀ (acc acc2 : List Line), acc.length = acc2.length → acc[idx]? = acc2[idx]? →
    (ps.foldl (fun a p => a.set p.1 p.2) acc)[idx]? =
      (ps.foldl (fun a p => a.set p.1 p.2) acc2)[idx]? := by
  induction ps with
  | nil => intro acc acc2 _ hidx; exact hidx
  | cons p rest ih =>
    intro acc acc2 hlen hidx
    simp only [List.foldl_cons]
    refine ih _ _ (by simp [List.length_set, hlen]) ?_
    simp only [List.getElem?_set, hlen, hidx]

theorem applyChunk_getElem_congr (tr : Line → Option Line) (c : TextBlock)
    (idx : Nat) (acc acc2 : List Line)
    (hlen : acc.length = acc2.length) (hidx : acc[idx]? = acc2[idx]?) :
    (applyChunk tr acc c)[idx]? = (applyChunk tr acc2 c)[idx]? := by
  unfold applyChunk
  split
  · exact hidx
  · rcases htr : tr (renderChunk c) with _ | s
    · exact hidx
    · exact foldl_set_getElem_congr _ idx _ _ hlen hidx

/-- What the whole translation does at an index owned by chunk `c`: the folds
over the other chunks never touch it, so the result is what `c` alone writes
over the original lines. -/
theorem translateLines_getElem_chunk (tr : Line → Option Line) (L : List Line)
    (c : TextBlock) (hc : c ∈ chunksOf L) (idx : Nat) (hidx : idx ∈ c.indices) :
    (translateLines tr L)[idx]? = (applyChunk tr L c)[idx]? := by
  obtain ⟨pre, post, hsplit⟩ := List.append_of_mem hc
  have hpw := chunksOf_allIdx_pairwise L
  rw [hsplit, allIdx_append, allIdx_cons, List.pairwise_append] at hpw
  obtain ⟨hp1, hp2, hcross⟩ := hpw
  rw [List.pairwise_append] at hp2
  obtain ⟨hpc, hppost, hcross2⟩ := hp2
  have hprenot : ∀ c' ∈ pre, idx ∉ c'.indices := by
    intro c' hc' hmem
    have hin : idx ∈ allIdx pre :=
      List.mem_flatten.mpr ⟨c'.indices, List.mem_map_of_mem _ hc', hmem⟩
    exact lt_irrefl idx (hcross idx hin idx (List.mem_append.mpr (Or.inl hidx)))
  have hpostnot : ∀ c' ∈ post, idx ∉ c'.indices := by
    intro c' hc' hmem
    have hin : idx ∈ allIdx post :=
      List.mem_flatten.mpr ⟨c'.indices, List.mem_map_of_mem _ hc', hmem⟩
    exact lt_irrefl idx (hcross2 idx hidx idx hin)
  rw [translateLines, hsplit, List.foldl_append, List.foldl_cons]
  rw [foldl_applyChunk_not_mem tr post idx hpostnot]
  exact applyChunk_getElem_congr tr c idx _ _
    (foldl_applyChunk_length tr pre L)
    (foldl_applyChunk_not_mem tr pre idx hprenot L)

theorem translateLines_length (tr : Line → Option Line) (L : List Line) :
    (translateLines tr L).length = L.length :=
  foldl_applyChunk_length tr (chunksOf L) L

theorem translateLines_getElem_untouched (tr : Line → Option Line)
    (L : List Line) (idx : Nat) (h : ∀ c ∈ chunksOf L, idx ∉ c.indices) :
    (translateLines tr L)[idx]? = L[idx]? :=
  foldl_applyChunk_not_mem tr (chunksOf L) idx h L

/-! ### Chunked-translator lemmas: newline-freedom and re-splitting -/

theorem splitFirst_suffix_mem (pat : Line) :
    ∀ (l a b : Line), splitFirst pat l = some (a, b) → ∀ c ∈ b, c ∈ l := by
  intro l
  induction l with
  | nil =>
    intro a b h c hc
    simp only [splitFirst] at h
    split at h
    · simp only [Option.some_inj, Prod.mk.injEq] at h
      rw [← h.2] at hc
      simp at hc
    · simp at h
  | cons x rest ih =>
    intro a b h c hc
    simp only [splitFirst] at h
    split at h
    · simp only [Option.some_inj, Prod.mk.injEq] at h
      rw [← h.2] at hc
      exact List.mem_of_mem_drop hc
    · rcases Option.map_eq_some'.mp h with ⟨⟨a2, b2⟩, hsf, heq⟩
      simp only [Prod.mk.injEq] at heq
      rw [← heq.2] at hc
      exact List.mem_cons_of_mem _ (ih a2 b2 hsf c hc)

theorem parseLine_no_newline {l out : Line} (h : parseLine l = some out)
    (hl : '\n' ∉ l) : '\n' ∉ out := by
  simp only [parseLine] at h
  split at h
  · simp at h
  · intro hmem
    split at h
    · rename_i p hsf
      rw [Option.some_inj] at h
      subst h
      exact hl (mem_of_mem_pyStrip
        (splitFirst_suffix_mem _ (pyStrip l) p.1 p.2 (by rw [hsf]) '\n' hmem))
    · rw [Option.some_inj] at h
      subst h
      exact hl (mem_of_mem_pyStrip hmem)

theorem mem_parseTranslated_no_newline (s : Line) :
    ∀ out ∈ parseTranslated s, '\n' ∉ out := by
  intro out hout
  obtain ⟨l, hl, hpl⟩ := List.mem_filterMap.mp hout
  exact parseLine_no_newline hpl (mem_pySplit_no_newline s l hl)

theorem mem_foldl_set (ps : List (Nat × Line)) :
    ∀ (acc : List Line) (x : Line), x ∈ ps.foldl (fun a p => a.set p.1 p.2) acc →
      x ∈ acc ∨ ∃ p ∈ ps, x = p.2 := by
  induction ps with
  | nil => intro acc x hx; exact Or.inl hx
  | cons p rest ih =>
    intro acc x hx
    rcases ih _ x hx with h | ⟨q, hq, hxq⟩
    · rcases List.mem_or_eq_of_mem_set h with h2 | h2
      · exact Or.inl h2
      · exact Or.inr ⟨p, List.mem_cons_self _ _, h2⟩
    · exact Or.inr ⟨q, List.mem_cons_of_mem _ hq, hxq⟩

theorem applyChunk_no_newline (tr : Line → Option Line) (acc : List Line)
    (c : TextBlock) (hacc : ∀ x ∈ acc, '\n' ∉ x) :
    ∀ x ∈ applyChunk tr acc c, '\n' ∉ x := by
  unfold applyChunk
  split
  · exact hacc
  · rcases htr : tr (renderChunk c) with _ | s
    · exact hacc
    · intro x hx
      rcases mem_foldl_set _ acc x hx with h | ⟨⟨p1, p2⟩, hp, hxp⟩
      · exact hacc x h
      · rw [hxp]
        exact mem_parseTranslated_no_newline s p2 (List.of_mem_zip hp).2

theorem translateLines_no_newline (tr : Line → Option Line) (L : List Line)
    (hL : ∀ x ∈ L, '\n' ∉ x) : ∀ x ∈ translateLines tr L, '\n' ∉ x := by
  rw [translateLines]
  generalize chunksOf L = cs
  induction cs generalizing L with
  | nil => exact hL
  | cons c rest ih =>
    rw [List.foldl_cons]
    exact ih (applyChunk tr L c) (applyChunk_no_newline tr L c hL)

/-- On non-blank input, splitting the output of `translate_vtt_content`
recovers exactly the translated line list. -/
theorem pySplit_translate (tr : Line → Option Line) (v : Line)
    (hv : (pyStrip v).isEmpty = false) :
    pySplit (translate_vtt_content tr v) = translateLines tr (pySplit v) := by
  rw [translate_vtt_content, if_neg (by simp [hv])]
  apply pySplit_joinNL
  · intro h
    have h1 := translateLines_length tr (pySplit v)
    rw [h] at h1
    exact pySplit_ne_nil v (List.length_eq_zero.mp h1.symm)
  · exact translateLines_no_newline tr (pySplit v) (mem_pySplit_no_newline v)

/-- An all-whitespace string strips to nothing. -/
theorem all_space_pyStrip_nil {l : Line} (h : ∀ c ∈ l, isPySpace c = true) :
    pyStrip l = [] := by
  unfold pyStrip
  rw [List.dropWhile_eq_nil_iff.mpr h]
  simp

/-- A document one of whose chunk indices exists is not blank (it contains a
translatable line, hence a non-whitespace character). -/
theorem nonblank_of_textPos (v : Line) (idx : Nat)
    (h : TextPos (pySplit v) idx) : (pyStrip v).isEmpty = false := by
  obtain ⟨l, hl, hskip⟩ := h
  obtain ⟨hlt, hg⟩ := List.getElem?_eq_some.mp hl
  have hlmem : l ∈ pySplit v := hg ▸ List.getElem_mem hlt
  have h1 : (pyStrip l).isEmpty = false := by
    unfold isSkipLine at hskip
    exact ((Bool.or_eq_false_iff.mp
      ((Bool.or_eq_false_iff.mp hskip).1)).1)
  have h2 : pyStrip l ≠ [] := by simpa [List.isEmpty_eq_false] using h1
  have h3 : ∃ ch ∈ l, isPySpace ch = false := by
    by_contra hcon
    push_neg at hcon
    refine h2 (all_space_pyStrip_nil (fun c hc => ?_))
    cases hb : isPySpace c with
    | false => exact absurd hb (hcon c hc)
    | true => rfl
  obtain ⟨ch, hchl, hchns⟩ := h3
  have hchv : ch ∈ v := mem_of_mem_pySplit hlmem hchl
  rw [List.isEmpty_eq_false]
  intro hnil
  have hsp := pyStrip_nil_all_space hnil ch hchv
  rw [hchns] at hsp
  simp at hsp

/-! ### Chunk-size lemma for claim C4 -/

/-- Greedy block accumulation: every chunk stays within `chunkSize` lines
except a chunk made of one oversized block, which sits alone.  `Q` is any
property of the incoming blocks (instantiated with membership in the block
list). -/
theorem buildChunksAux_size (Q : TextBlock → Prop) :
    ∀ (blocks : List TextBlock) (cur : TextBlock),
      (cur.text_lines.length ≤ chunkSize ∨ (Q cur ∧ chunkSize < cur.text_lines.length)) →
      (∀ b ∈ blocks, Q b) →
      (cur.text_lines = [] → cur.indices = []) →
      (∀ b ∈ blocks, b.text_lines = [] → b.indices = []) →
      ∀ c ∈ buildChunksAux blocks cur,
        c.text_lines.length ≤ chunkSize ∨ (Q c ∧ chunkSize < c.text_lines.length) := by
  intro blocks
  induction blocks with
  | nil =>
    intro cur hP _ _ _ c hc
    simp only [buildChunksAux] at hc
    split at hc
    · simp at hc
    · simp only [List.mem_singleton] at hc
      subst hc
      exact hP
  | cons b rest ih =>
    intro cur hP hQ hwf hwfb c hc
    simp only [buildChunksAux] at hc
    split at hc
    · rcases List.mem_cons.mp hc with h | h
      · subst h
        exact hP
      · refine ih b ?_ (fun b2 hb2 => hQ b2 (List.mem_cons_of_mem _ hb2))
          (hwfb b (List.mem_cons_self _ _))
          (fun b2 hb2 => hwfb b2 (List.mem_cons_of_mem _ hb2)) c h
        rcases le_or_lt b.text_lines.length chunkSize with hb | hb
        · exact Or.inl hb
        · exact Or.inr ⟨hQ b (List.mem_cons_self _ _), hb⟩
    · rename_i hcond
      refine ih ⟨cur.text_lines ++ b.text_lines, cur.indices ++ b.indices⟩ ?_
        (fun b2 hb2 => hQ b2 (List.mem_cons_of_mem _ hb2))
        (fun h => by
          rcases List.append_eq_nil.mp h with ⟨h1, h2⟩
          simp [hwf h1, hwfb b (List.mem_cons_self _ _) h2])
        (fun b2 hb2 => hwfb b2 (List.mem_cons_of_mem _ hb2)) c hc
      by_cases hce : cur.text_lines = []
      · have hci : cur.indices = [] := hwf hce
        have heq : (⟨cur.text_lines ++ b.text_lines, cur.indices ++ b.indices⟩ :
            TextBlock) = b := by
          simp [hce, hci]
        rw [heq]
        rcases le_or_lt b.text_lines.length chunkSize with hb | hb
        · exact Or.inl hb
        · exact Or.inr ⟨hQ b (List.mem_cons_self _ _), hb⟩
      · have hlen : cur.text_lines.length + b.text_lines.length ≤ chunkSize := by
          by_contra hgt
          push_neg at hgt
          exact hcond (by simp [hgt, List.isEmpty_eq_false, hce])
        exact Or.inl (by simpa using hlen)

theorem foldl_applyChunk_always_none (cs : List TextBlock) :
    ∀ acc : List Line, cs.foldl (applyChunk (fun _ => none)) acc = acc := by
  induction cs with
  | nil => intro acc; rfl
  | cons c rest ih =>
    intro acc
    rw [List.foldl_cons, applyChunk_none _ _ _ rfl, ih]

/-! ### Claims C1, C2, C4, C6 -/

/-- Claim C1: on any non-blank document (every subtitle document is non-blank,
since it contains the header), the translated document has the same number of
lines, and every non-translatable line (blank, header, or containing
`-->`) is reproduced unchanged at its original absolute position; only
translatable text lines can differ. -/
theorem c1_position_integrity (tr : Line → Option Line) (v : Line)
    (hv : (pyStrip v).isEmpty = false) :
    (pySplit (translate_vtt_content tr v)).length = (pySplit v).length ∧
    ∀ (idx : Nat) (l : Line), (pySplit v)[idx]? = some l →
      isSkipLine (pyStrip l) = true →
      (pySplit (translate_vtt_content tr v))[idx]? = some l := by
  rw [pySplit_translate tr v hv]
  refine ⟨translateLines_length tr (pySplit v), ?_⟩
  intro idx l hl hskip
  rw [translateLines_getElem_untouched tr (pySplit v) idx ?_]
  · exact hl
  · intro c hc hmem
    obtain ⟨l2, hl2, hskip2⟩ := chunksOf_textPos (pySplit v) c hc idx hmem
    rw [hl, Option.some_inj] at hl2
    subst hl2
    rw [hskip] at hskip2
    simp at hskip2

def c1doc : Line := ("WEBVTT\n\n00:00:00.000 --> 00:00:01.000\nhello\nworld").data

/-- Witness for C1 at a concrete document and capability. -/
theorem c1_position_integrity_witness :
    (pySplit (translate_vtt_content (fun _ => some ("1. X\n2. Y".data)) c1doc)).length =
      (pySplit c1doc).length ∧
    (pySplit (translate_vtt_content (fun _ => some ("1. X\n2. Y".data)) c1doc))[2]? =
      some ("00:00:00.000 --> 00:00:01.000".data) :=
  ⟨(c1_position_integrity (fun _ => some ("1. X\n2. Y".data)) c1doc (by decide)).1,
    (c1_position_integrity (fun _ => some ("1. X\n2. Y".data)) c1doc (by decide)).2
      2 ("00:00:00.000 --> 00:00:01.000".data) (by decide) (by decide)⟩

/-- Claim C2: a chunk whose translation call fails keeps every one of its
lines unchanged while the other chunks are still processed; in particular
with an always-throwing capability the returned document is textually
identical to the (non-blank) input. -/
theorem c2_failure_isolation :
    (∀ (tr : Line → Option Line) (v : Line) (c : TextBlock),
      c ∈ chunksOf (pySplit v) → tr (renderChunk c) = none →
      ∀ idx ∈ c.indices,
        (pySplit (translate_vtt_content tr v))[idx]? = (pySplit v)[idx]?) ∧
    (∀ v : Line, (pyStrip v).isEmpty = false →
      translate_vtt_content (fun _ => none) v = v) := by
  constructor
  · intro tr v c hc htr idx hidx
    have hv : (pyStrip v).isEmpty = false :=
      nonblank_of_textPos v idx (chunksOf_textPos (pySplit v) c hc idx hidx)
    rw [pySplit_translate tr v hv,
      translateLines_getElem_chunk tr (pySplit v) c hc idx hidx,
      applyChunk_none tr (pySplit v) c htr]
  · intro v hv
    rw [translate_vtt_content, if_neg (by simp [hv]), translateLines,
      foldl_applyChunk_always_none, joinNL_pySplit]

def c2doc : Line :=
  ("WEBVTT\n\n00:00:00.000 --> 00:00:01.000\nhello\nworld\nagain").data

def c2chunk : TextBlock :=
  ⟨["hello".data, "world".data, "again".data], [3, 4, 5]⟩

/-- Witness for C2: the three text lines of `c2doc` form a single chunk; an
always-throwing capability returns the input verbatim, and the failed
chunk's first line position is untouched. -/
theorem c2_failure_isolation_witness :
    translate_vtt_content (fun _ => none) c2doc = c2doc ∧
    (pySplit (translate_vtt_content (fun _ => none) c2doc))[3]? =
      (pySplit c2doc)[3]? :=
  ⟨c2_failure_isolation.2 c2doc (by decide),
    c2_failure_isolation.1 (fun _ => none) c2doc c2chunk (by decide) rfl 3 (by decide)⟩

/-- Claim C4, counterexample: the chunker accumulates whole blocks of
consecutive text lines, not single lines, so a document with 41 consecutive
text lines yields one chunk of 41 lines — more than the threshold 40 and not
a single oversized line — refuting the stated per-line greedy bound. -/
def c4doc : Line := ("WEBVTT\n\n").data ++ joinNL (List.replicate 41 ("a".data))

theorem c4_counterexample :
    ((chunksOf (pySplit c4doc)).map (fun c => c.text_lines.length) = [41]) ∧
    ¬((41 : Nat) ≤ 40 ∨ (41 : Nat) = 1) := ⟨by decide, by decide⟩

/-- Claim C4, amended: chunks are built by greedily accumulating whole blocks
of consecutive translatable lines, flushing the current chunk before a block
that would push it past 40 lines; hence every chunk has at most 40
translatable lines except a chunk consisting of a single oversized block
(more than 40 consecutive text lines), which occupies a chunk by itself. -/
theorem c4_chunks_blockwise_greedy (lines : List Line) (c : TextBlock)
    (hc : c ∈ chunksOf lines) :
    c.text_lines.length ≤ chunkSize ∨
      (c ∈ textBlocks lines ∧ chunkSize < c.text_lines.length) := by
  have hwfb : ∀ b ∈ textBlocks lines, b.text_lines.length = b.indices.length :=
    firstPassAux_wf lines 0 [] [] rfl
  exact buildChunksAux_size (· ∈ textBlocks lines) (textBlocks lines) ⟨[], []⟩
    (Or.inl (by simp [chunkSize])) (fun b hb => hb) (fun _ => rfl)
    (fun b hb h => by
      have h2 := hwfb b hb
      rw [h] at h2
      exact List.length_eq_zero.mp h2.symm) c hc

def c4chunk : TextBlock := ⟨List.replicate 41 ("a".data), List.range' 2 41⟩

/-- Witness for C4's amended theorem at the 41-line document. -/
theorem c4_chunks_blockwise_greedy_witness :
    c4chunk ∈ chunksOf (pySplit c4doc) ∧
    (c4chunk.text_lines.length ≤ chunkSize ∨
      (c4chunk ∈ textBlocks (pySplit c4doc) ∧ chunkSize < c4chunk.text_lines.length)) :=
  ⟨by decide, c4_chunks_blockwise_greedy (pySplit c4doc) c4chunk (by decide)⟩

/-- Claim C6: when the capability returns a batch for a chunk, the parsed
returned lines are written back to the chunk's original document positions by
parallel index, and every trailing original position beyond the number of
returned lines keeps its pre-translation text; the total embedding raises no
exception. -/
theorem c6_short_output_parallel (tr : Line → Option Line) (v : Line)
    (c : TextBlock) (s : Line)
    (hc : c ∈ chunksOf (pySplit v)) (hs : tr (renderChunk c) = some s) :
    ∀ i idx, c.indices[i]? = some idx →
      ((i < (parseTranslated s).length →
        (pySplit (translate_vtt_content tr v))[idx]? = (parseTranslated s)[i]?) ∧
      ((parseTranslated s).length ≤ i →
        (pySplit (translate_vtt_content tr v))[idx]? = (pySplit v)[idx]?)) := by
  intro i idx hi
  have hmem : idx ∈ c.indices := by
    obtain ⟨hlt, hg⟩ := List.getElem?_eq_some.mp hi
    exact hg ▸ List.getElem_mem hlt
  have hv : (pyStrip v).isEmpty = false :=
    nonblank_of_textPos v idx (chunksOf_textPos (pySplit v) c hc idx hmem)
  have hpw : List.Pairwise (· < ·) c.indices :=
    (chunksOf_allIdx_pairwise (pySplit v)).sublist
      (List.sublist_flatten_of_mem (List.mem_map_of_mem TextBlock.indices hc))
  have hlen : idx < (pySplit v).length := by
    obtain ⟨l2, hl2, _⟩ := chunksOf_textPos (pySplit v) c hc idx hmem
    exact (List.getElem?_eq_some.mp hl2).1
  have hcne : c.text_lines ≠ [] := chunksOf_nonempty (pySplit v) c hc
  rw [pySplit_translate tr v hv,
    translateLines_getElem_chunk tr (pySplit v) c hc idx hmem,
    applyChunk_getElem_assign tr (pySplit v) c s i idx hpw hs hcne hi hlen]
  constructor
  · intro h
    rw [if_pos h]
  · intro h
    rw [if_neg (by omega)]

def c6doc : Line :=
  ("WEBVTT\n\n00:00:00.000 --> 00:00:01.000\nhello\nworld").data

def c6chunk : TextBlock := ⟨["hello".data, "world".data], [3, 4]⟩

/-- Witness for C6: the capability returns one line for a two-line chunk; the
first position gets the parsed line, the trailing position keeps its text. -/
theorem c6_short_output_parallel_witness :
    (pySplit (translate_vtt_content (fun _ => some ("1. X".data)) c6doc))[3]? =
      (parseTranslated ("1. X".data))[0]? ∧
    (pySplit (translate_vtt_content (fun _ => some ("1. X".data)) c6doc))[4]? =
      (pySplit c6doc)[4]? ∧
    (parseTranslated ("1. X".data))[0]? = some ("X".data) :=
  ⟨(c6_short_output_parallel (fun _ => some ("1. X".data)) c6doc c6chunk
      ("1. X".data) (by decide) rfl 0 3 (by decide)).1 (by decide),
    (c6_short_output_parallel (fun _ => some ("1. X".data)) c6doc c6chunk
      ("1. X".data) (by decide) rfl 1 4 (by decide)).2 (by decide),
    by decide⟩

/-! ### Word-reconstructor lemmas -/

/-- Words are only ever appended under the `if current_word:` guard, so no
word with empty text is ever kept. -/
theorem wordsAux_text_ne_empty (ts : List Token) (cur : Line) (cs ce : Nat)
    (acc : List Word) (hacc : ∀ w ∈ acc, w.text ≠ []) :
    ∀ w ∈ wordsAux ts cur cs ce acc, w.text ≠ [] := by
  induction ts generalizing cur cs ce acc with
  | nil =>
    simp only [wordsAux]
    split
    · exact hacc
    · rename_i hcur
      intro w hw
      rcases List.mem_append.mp hw with h | h
      · exact hacc w h
      · simp only [List.mem_singleton] at h
        subst h
        simpa using hcur
  | cons t rest ih =>
    simp only [wordsAux]
    split
    · apply ih
      split
      · exact hacc
      · rename_i hcur
        intro w hw
        rcases List.mem_append.mp hw with h | h
        · exact hacc w h
        · simp only [List.mem_singleton] at h
          subst h
          simpa using hcur
    · exact ih _ _ _ _ hacc

/-- The reconstructor produces at most one word per token, plus at most one
for a pending accumulator. -/
theorem wordsAux_length (ts : List Token) (cur : Line) (cs ce : Nat)
    (acc : List Word) :
    (wordsAux ts cur cs ce acc).length ≤
      acc.length + ts.length + (if cur.isEmpty then 0 else 1) := by
  induction ts generalizing cur cs ce acc with
  | nil =>
    simp only [wordsAux]
    split
    · simp
    · simp
  | cons t rest ih =>
    simp only [wordsAux]
    split
    · refine le_trans (ih _ _ _ _) ?_
      split
      · split <;> simp [List.length_cons] <;> omega
      · split <;> simp [List.length_cons] <;> omega
    · rename_i hcond
      refine le_trans (ih _ _ _ _) ?_
      have hcur : cur.isEmpty = false :=
        (Bool.or_eq_false_iff.mp (Bool.eq_false_iff.mpr hcond)).2
      have hcat : (cur ++ t.text).isEmpty = false := by
        cases cur with
        | nil => simp at hcur
        | cons c cs2 => simp
      simp only [hcur, hcat, List.length_cons, if_false]
      omega

/-- Timing invariant of the reconstruction loop: if the tokens are internally
consistent and non-overlapping in order, every produced word has
`start_ms ≤ end_ms`. -/
theorem wordsAux_start_le_end (ts : List Token) (cur : Line) (cs ce : Nat)
    (acc : List Word)
    (hacc : ∀ w ∈ acc, w.start_ms ≤ w.end_ms)
    (hcur : cur.isEmpty = false → cs ≤ ce)
    (hnext : cur.isEmpty = false → ∀ t ∈ ts.head?, ce ≤ t.start_ms)
    (h1 : ∀ t ∈ ts, t.start_ms ≤ t.end_ms)
    (h2 : List.Chain' (fun a b => a.end_ms ≤ b.start_ms) ts) :
    ∀ w ∈ wordsAux ts cur cs ce acc, w.start_ms ≤ w.end_ms := by
  induction ts generalizing cur cs ce acc with
  | nil =>
    simp only [wordsAux]
    split
    · exact hacc
    · rename_i hc
      intro w hw
      rcases List.mem_append.mp hw with h | h
      · exact hacc w h
      · simp only [List.mem_singleton] at h
        subst h
        exact hcur (eq_false_of_ne_true hc)
  | cons t rest ih =>
    rw [List.chain'_cons'] at h2
    simp only [wordsAux]
    split
    · apply ih _ _ _ _ ?_ ?_ ?_ ?_ h2.2
      · split
        · exact hacc
        · rename_i hc
          intro w hw
          rcases List.mem_append.mp hw with h | h
          · exact hacc w h
          · simp only [List.mem_singleton] at h
            subst h
            exact hcur (eq_false_of_ne_true hc)
      · intro _
        exact h1 t (List.mem_cons_self _ _)
      · intro _ u hu
        exact h2.1 u hu
      · intro u hu
        exact h1 u (List.mem_cons_of_mem _ hu)
    · rename_i hcond
      apply ih _ _ _ _ hacc ?_ ?_ ?_ h2.2
      · intro _
        have hc : cur.isEmpty = false :=
          (Bool.or_eq_false_iff.mp (Bool.eq_false_iff.mpr hcond)).2
        calc cs ≤ ce := hcur hc
          _ ≤ t.start_ms := hnext hc t (by simp)
          _ ≤ t.end_ms := h1 t (List.mem_cons_self _ _)
      · intro _ u hu
        exact h2.1 u hu
      · intro u hu
        exact h1 u (List.mem_cons_of_mem _ hu)

/-! ### Cue-segmenter lemmas -/

theorem groupWords_flatten (ws : List Word) : (groupWords ws).flatten = ws := by
  induction ws using groupWords.induct with
  | case1 => simp [groupWords]
  | case2 a b c d e f rest ih => simp [groupWords, ih]
  | case3 ws h1 h2 => simp [groupWords]

theorem groupWords_le_six (ws : List Word) :
    ∀ c ∈ groupWords ws, c.length ≤ 6 := by
  induction ws using groupWords.induct with
  | case1 => simp [groupWords]
  | case2 a b c d e f rest ih =>
    intro c hc
    simp only [groupWords, List.mem_cons] at hc
    rcases hc with h | h
    · subst h; simp
    · exact ih c h
  | case3 ws h1 h2 =>
    intro c hc
    rcases ws with _ | ⟨a, _ | ⟨b, _ | ⟨c2, _ | ⟨d, _ | ⟨e, _ | ⟨f, rest⟩⟩⟩⟩⟩⟩
    · exact absurd rfl h1
    · simp only [groupWords, List.mem_singleton] at hc; subst hc; simp
    · simp only [groupWords, List.mem_singleton] at hc; subst hc; simp
    · simp only [groupWords, List.mem_singleton] at hc; subst hc; simp
    · simp only [groupWords, List.mem_singleton] at hc; subst hc; simp
    · simp only [groupWords, List.mem_singleton] at hc; subst hc; simp
    · exact (h2 a b c2 d e f rest rfl).elim

theorem groupWords_length (ws : List Word) :
    (groupWords ws).length = (ws.length + 5) / 6 := by
  induction ws using groupWords.induct with
  | case1 => simp [groupWords]
  | case2 a b c d e f rest ih =>
    simp only [groupWords, List.length_cons, ih]
    omega
  | case3 ws h1 h2 =>
    rcases ws with _ | ⟨a, _ | ⟨b, _ | ⟨c2, _ | ⟨d, _ | ⟨e, _ | ⟨f, rest⟩⟩⟩⟩⟩⟩
    · exact absurd rfl h1
    · simp [groupWords]
    · simp [groupWords]
    · simp [groupWords]
    · simp [groupWords]
    · simp [groupWords]
    · exact (h2 a b c2 d e f rest rfl).elim

/-! ### Claims C3, C5, C7, C8, C9, C10 -/

/-- Claim C3, counterexample: a token whose text is a single space yields no
word at all — the empty-text word the claim says is retained is in fact
dropped (the `if current_word:` guard fails on the empty accumulator). -/
theorem c3_counterexample :
    wordsFromTokens [⟨" ".data, 5, 9⟩] = ([] : List Word) := by decide

/-- Claim C3, amended: a whitespace-only token starts a new accumulator with
empty text carrying the token's timings, but because words are appended only
when the accumulator text is nonempty, no empty-string word is ever retained:
the returned word list never contains an empty-text word. -/
theorem c3_no_empty_word_retained (ts : List Token) :
    ∀ w ∈ wordsFromTokens ts, w.text ≠ [] :=
  wordsAux_text_ne_empty ts [] 0 0 [] (by simp)

/-- Witness for C3's amended theorem at a concrete token list. -/
theorem c3_no_empty_word_retained_witness :
    Word.mk "x".data 0 1 ∈ wordsFromTokens [⟨"x".data, 0, 1⟩] ∧
      (Word.mk "x".data 0 1).text ≠ [] :=
  ⟨by decide,
    c3_no_empty_word_retained [⟨"x".data, 0, 1⟩] (Word.mk "x".data 0 1) (by decide)⟩

/-- Claim C5: the cue segmenter cuts the word list into exactly
`⌈len/6⌉ = (len+5)/6` cues of at most six words each, in order, and the cues
concatenate back to the original word sequence. -/
theorem c5_cue_partition (ws : List Word) :
    (groupWords ws).length = (ws.length + 5) / 6 ∧
    (∀ c ∈ groupWords ws, c.length ≤ 6) ∧
    (groupWords ws).flatten = ws :=
  ⟨groupWords_length ws, groupWords_le_six ws, groupWords_flatten ws⟩

/-- Witness for C5 at a concrete seven-word list. -/
theorem c5_cue_partition_witness :
    (groupWords ((List.range 7).map (fun i => Word.mk (natLine i) i (i + 1)))).length = 2 ∧
    (groupWords ((List.range 7).map (fun i => Word.mk (natLine i) i (i + 1)))).flatten =
      (List.range 7).map (fun i => Word.mk (natLine i) i (i + 1)) ∧
    [Word.mk (natLine 6) 6 7].length ≤ 6 :=
  ⟨by rw [(c5_cue_partition _).1]; decide,
    (c5_cue_partition _).2.2,
    (c5_cue_partition ((List.range 7).map (fun i => Word.mk (natLine i) i (i + 1)))).2.1
      [Word.mk (natLine 6) 6 7] (by decide)⟩

/-- Claim C7, counterexample: for a token sequence with out-of-order timings
the reconstructor produces a word with `start_ms > end_ms`, so the claim as
stated (for every token sequence) fails. -/
theorem c7_counterexample :
    wordsFromTokens [⟨"a".data, 100, 100⟩, ⟨"b".data, 0, 0⟩] =
      [⟨"ab".data, 100, 0⟩] ∧
    ((wordsFromTokens [⟨"a".data, 100, 100⟩, ⟨"b".data, 0, 0⟩]).all
      (fun w => w.start_ms ≤ w.end_ms)) = false := by decide

/-- Claim C7, amended: for every token sequence the number of words is at
most the number of tokens; and when the tokens are internally consistent
(`start_ms ≤ end_ms`) and non-overlapping in order (each token's `end_ms` at
most the next token's `start_ms`), every word satisfies
`start_ms ≤ end_ms`. -/
theorem c7_words_wellformed (ts : List Token) :
    (wordsFromTokens ts).length ≤ ts.length ∧
    ((∀ t ∈ ts, t.start_ms ≤ t.end_ms) →
      List.Chain' (fun a b => a.end_ms ≤ b.start_ms) ts →
      ∀ w ∈ wordsFromTokens ts, w.start_ms ≤ w.end_ms) := by
  constructor
  · have := wordsAux_length ts [] 0 0 []
    simpa [wordsFromTokens] using this
  · intro h1 h2
    exact wordsAux_start_le_end ts [] 0 0 [] (by simp) (by simp) (by simp) h1 h2

/-- Witness for C7's amended theorem at the spec's example token sequence. -/
theorem c7_words_wellformed_witness :
    (wordsFromTokens [⟨"H".data, 0, 100⟩, ⟨"i".data, 100, 200⟩,
      ⟨" there".data, 200, 400⟩]).length ≤ 3 ∧
    (Word.mk "Hi".data 0 200).start_ms ≤ (Word.mk "Hi".data 0 200).end_ms :=
  ⟨(c7_words_wellformed _).1,
    (c7_words_wellformed [⟨"H".data, 0, 100⟩, ⟨"i".data, 100, 200⟩,
        ⟨" there".data, 200, 400⟩]).2
      (by decide)
      (by simp [List.chain'_cons])
      (Word.mk "Hi".data 0 200) (by decide)⟩

/-- Claim C8, counterexample: `generate_vtt` on zero tokens returns the
literal `"WEBVTT\n\n"` — the header line followed by a blank line — and not
the bare header line alone. -/
theorem c8_counterexample :
    generate_vtt [] = "WEBVTT\n\n".data ∧
    generate_vtt [] ≠ "WEBVTT".data ∧
    generate_vtt [] ≠ "WEBVTT\n".data := by decide

/-- Claim C8, amended: building a document from zero tokens (or from tokens
yielding an empty word list) is not an error and yields exactly the header
line followed by one blank line, the literal string `"WEBVTT\n\n"`, whose
lines contain no timestamp (`-->`) line and hence no cues. -/
theorem c8_empty_header_only :
    generate_vtt [] = "WEBVTT\n\n".data ∧
    generate_vtt [⟨" ".data, 0, 1⟩] = "WEBVTT\n\n".data ∧
    pySplit (generate_vtt []) = ["WEBVTT".data, [], []] ∧
    ((pySplit (generate_vtt [])).all
      (fun l => !hasSub ("-->".data) l)) = true := by decide

/-- Claim C9: the timestamp formatter is not capped at 24 hours and
zero-pads hours to at least two digits, minutes and seconds to two digits
and milliseconds to three digits: 90061500 ms renders as `25:01:01.500` and
500 ms as `00:00:00.500`. -/
theorem c9_format_vtt_timestamp :
    format_vtt_timestamp 90061500 = "25:01:01.500".data ∧
    format_vtt_timestamp 500 = "00:00:00.500".data := by decide

/-- Claim C10: a document that is empty or whitespace-only makes
`translate_vtt_content` return the empty string, for every behaviour of the
translation capability (in particular the capability is never consulted). -/
theorem c10_blank_input_empty_output (tr : Line → Option Line) (v : Line)
    (hv : (pyStrip v).isEmpty = true) : translate_vtt_content tr v = [] := by
  simp [translate_vtt_content, hv]

/-- Witness for C10 at a concrete whitespace-only input. -/
theorem c10_blank_input_empty_output_witness :
    (pyStrip (" \n \t".data)).isEmpty = true ∧
    translate_vtt_content (fun s => some s) (" \n \t".data) = [] :=
  ⟨by decide, c10_blank_input_empty_output (fun s => some s) (" \n \t".data) (by decide)⟩

end Soniox
